import Mathlib

/-!
Verification of the YAML flattening engine of terraform-provider-yamlflattener.

This file gives a shallow embedding, in Lean 4, of the flattening engine in
`internal/flattener/flattener.go` and `internal/flattener/ordered_map.go`:
the recursive node traversal with depth and result-size guards, key
sanitization, path building, the insertion-ordered map, and the validated
file entry point.  Go strings are byte sequences, so they are modelled as
lists of byte values (`GoStr`); `len`, slicing and `strings.ReplaceAll` on a
one-byte pattern then translate directly to list length, `take` and `filter`.
Theorems at the end of the file settle the specification claims against this
embedding.
-/

set_option autoImplicit false

/-- Go strings are byte sequences; we model them as lists of byte values. -/
abbrev GoStr := List Nat

/-- UTF-8 bytes of one character. -/
def charBytes (c : Char) : List Nat :=
  let n := c.toNat
  if n < 0x80 then [n]
  else if n < 0x800 then [0xC0 + n / 0x40, 0x80 + n % 0x40]
  else if n < 0x10000 then [0xE0 + n / 0x1000, 0x80 + (n / 0x40) % 0x40, 0x80 + n % 0x40]
  else [0xF0 + n / 0x40000, 0x80 + (n / 0x1000) % 0x40, 0x80 + (n / 0x40) % 0x40, 0x80 + n % 0x40]

/-- Byte-level view of a Lean string literal, as the Go string it denotes. -/
def goStr (s : String) : GoStr :=
  s.data.foldr (fun c acc => charBytes c ++ acc) []

/-- Decimal digits of a natural number, as ASCII bytes; the fuel argument
makes the recursion structural (fuel `n + 1` always suffices for `n`). -/
def numBytesAux : Nat → Nat → GoStr
  | 0, _ => []
  | _ + 1, 0 => []
  | fuel + 1, n => numBytesAux fuel (n / 10) ++ [n % 10 + 48]

/-- Base-10 rendering of a natural number as bytes: Go `fmt` verb `%d` and
`strconv.Itoa` for non-negative values. -/
def numBytes (n : Nat) : GoStr :=
  if n = 0 then [48] else numBytesAux (n + 1) n

/-- The document tree produced by the external YAML parser (`yaml.Node` of
gopkg.in/yaml.v3, the fields the engine reads): a kind, a tag and raw value
for scalars, an ordered child list (alternating key, value for mappings),
and for alias nodes the resolved target (`Alias *Node`, possibly nil).
Pointer-level sharing and cycles are outside the tree model. -/
inductive YamlNode where
  | document (content : List YamlNode)
  | mapping (content : List YamlNode)
  | sequence (content : List YamlNode)
  | scalar (tag value : GoStr)
  | aliasTo (target : YamlNode)
  | aliasNil

/-- The `Flattener` configuration struct of `flattener.go`. -/
structure Flattener where
  maxNestingDepth : Nat
  maxResultSize : Nat
  maxYAMLSize : Nat

/-- `NewFlattener()` of `flattener.go`: default limits 100 / 100000 / 10 MiB. -/
def NewFlattener : Flattener := ⟨100, 100000, 10 * 1024 * 1024⟩

/-- Message of `fmt.Errorf("maximum nesting depth of %d exceeded", ...)`. -/
def depthLimitMsg (d : Nat) : GoStr :=
  goStr "maximum nesting depth of " ++ numBytes d ++ goStr " exceeded"

/-- Message of `fmt.Errorf("maximum result size of %d key-value pairs exceeded", ...)`. -/
def sizeLimitMsg (s : Nat) : GoStr :=
  goStr "maximum result size of " ++ numBytes s ++ goStr " key-value pairs exceeded"

/-- `validateDepthAndSize` of `flattener.go`: depth is checked first
(`depth > f.MaxNestingDepth`), then result size (`resultSize >= f.MaxResultSize`). -/
def validateDepthAndSize (f : Flattener) (depth resultSize : Nat) : Except GoStr Unit :=
  if depth > f.maxNestingDepth then .error (depthLimitMsg f.maxNestingDepth)
  else if resultSize ≥ f.maxResultSize then .error (sizeLimitMsg f.maxResultSize)
  else .ok ()

/-- `buildPrefix` of `flattener.go`: empty parent yields the key alone,
otherwise parent, a dot (byte 46), and the key. -/
def buildPrefix (pfx key : GoStr) : GoStr :=
  if pfx = [] then key else pfx ++ [46] ++ key

/-- `sanitizeKey` of `internal/flattener/flattener.go` (the node-based
engine): `strings.ReplaceAll(key, "\x00", "")` removes NUL bytes, then the
key is truncated to `maxKeyLength = 1000` bytes (`key[:1000]` slices bytes). -/
def sanitizeKey (key : GoStr) : GoStr :=
  let k := key.filter (fun b => !(b == 0))
  if k.length > 1000 then k.take 1000 else k

/-- The null test of the scalar case of `flattenNodeWithDepth`:
`node.Tag == "!!null" || node.Value == "null" || node.Value == "~" || node.Value == ""`. -/
def isNullScalar (tag value : GoStr) : Prop :=
  tag = goStr "!!null" ∨ value = goStr "null" ∨ value = goStr "~" ∨ value = []

instance (tag value : GoStr) : Decidable (isNullScalar tag value) := by
  unfold isNullScalar; infer_instance

/-- The engine writes into a Go `map[string]string`; we embed it as an
association list with distinct keys (insertion order is an artifact of the
embedding; `len` of the Go map is the list length). -/
abbrev FlatResult := List (GoStr × GoStr)

/-- `result[prefix] = v` on a Go map: update the binding if the key is
present, append a new binding otherwise. -/
def mapSet : FlatResult → GoStr → GoStr → FlatResult
  | [], k, v => [(k, v)]
  | (k', v') :: t, k, v => if k' = k then (k, v) :: t else (k', v') :: mapSet t k v

/-- `fmt.Sprintf("%s[%d]", prefix, i)` as used for sequence elements:
parent, byte 91 `[`, the decimal index, byte 93 `]`. -/
def sprintfIndex (pfx : GoStr) (i : Nat) : GoStr :=
  pfx ++ [91] ++ numBytes i ++ [93]

mutual

/-- `flattenNodeWithDepth` of `flattener.go`: validates depth and current
result size on entry to every node, unwraps a document to its first child at
the same depth, recurses into mappings and sequences at `depth + 1`, writes
formatted scalars, and follows a non-nil alias at the same depth. -/
def flattenNodeWithDepth (f : Flattener) (node : YamlNode) (pfx : GoStr)
    (result : FlatResult) (depth : Nat) : Except GoStr FlatResult :=
  match validateDepthAndSize f depth result.length with
  | .error e => .error e
  | .ok _ =>
    match node with
    | .document content =>
      match content with
      | c :: _ => flattenNodeWithDepth f c pfx result depth
      | [] => .ok result
    | .mapping content => flattenMappingNodeWithDepth f content pfx result (depth + 1)
    | .sequence content => flattenSequenceNodeWithDepth f content pfx result (depth + 1) 0
    | .scalar tag value =>
      if isNullScalar tag value then .ok (mapSet result pfx [])
      else .ok (mapSet result pfx value)
    | .aliasTo target => flattenNodeWithDepth f target pfx result depth
    | .aliasNil => .ok result

/-- `flattenMappingNodeWithDepth` of `flattener.go`: content alternates
key, value; a trailing unpaired node is skipped (`break`); a non-scalar key
is an error; keys are sanitized and joined with `buildPrefix`. -/
def flattenMappingNodeWithDepth (f : Flattener) (content : List YamlNode) (pfx : GoStr)
    (result : FlatResult) (depth : Nat) : Except GoStr FlatResult :=
  match content with
  | keyNode :: valueNode :: rest =>
    match keyNode with
    | .scalar _ keyVal =>
      match flattenNodeWithDepth f valueNode ( buildPrefix pfx (sanitizeKey keyVal)) result depth with
      | .error e => .error e
      | .ok result2 => flattenMappingNodeWithDepth f rest pfx result2 depth
    | _ => .error (goStr "non-scalar key in YAML mapping")
  | _ => .ok result

/-- `flattenSequenceNodeWithDepth` of `flattener.go`: elements are visited
in order with 0-based index `i` and child prefix `fmt.Sprintf("%s[%d]", prefix, i)`. -/
def flattenSequenceNodeWithDepth (f : Flattener) (content : List YamlNode) (pfx : GoStr)
    (result : FlatResult) (depth : Nat) (i : Nat) : Except GoStr FlatResult :=
  match content with
  | childNode :: rest =>
    match flattenNodeWithDepth f childNode (sprintfIndex pfx i) result depth with
    | .error e => .error e
    | .ok result2 => flattenSequenceNodeWithDepth f rest pfx result2 depth (i + 1)
  | [] => .ok result

end

/-- `FlattenYAMLNode` of `flattener.go`: flatten a parsed node starting from
the empty prefix, an empty result and depth 0 (the nil-pointer guard has no
counterpart in the tree model). -/
def FlattenYAMLNode (f : Flattener) (node : YamlNode) : Except GoStr FlatResult :=
  flattenNodeWithDepth f node [] [] 0

/-- `sanitizeYAMLContent` of `flattener.go`: remove NUL bytes. -/
def sanitizeYAMLContent (content : GoStr) : GoStr :=
  content.filter (fun b => !(b == 0))

/-- `FlattenYAMLString` of `flattener.go`, with the external
`yaml.Unmarshal` passed in as `parse`.  The 5-second parse timeout is a
concurrency construct with no behaviour on the value level and is omitted. -/
def FlattenYAMLString (f : Flattener) (parse : GoStr → Except GoStr YamlNode)
    (yamlContent : GoStr) : Except GoStr FlatResult :=
  if yamlContent = [] then .error (goStr "YAML content cannot be empty")
  else if yamlContent.length > f.maxYAMLSize then
    .error (goStr "YAML content size exceeds maximum allowed size of " ++
      numBytes f.maxYAMLSize ++ goStr " bytes")
  else
    match parse (sanitizeYAMLContent yamlContent) with
    | .error e => .error (goStr "failed to parse YAML content: " ++ e)
    | .ok node => FlattenYAMLNode f node

/-! ### The ordered map of `internal/flattener/ordered_map.go` -/

/-- `OrderedMap` of `ordered_map.go`: an insertion-ordered key list plus a
key-value map; the Go `map[string]string` field is embedded as an
association list. -/
structure OrderedMap where
  keys : List GoStr
  values : List (GoStr × GoStr)

/-- `NewOrderedMap()` of `ordered_map.go`. -/
def NewOrderedMap : OrderedMap := ⟨[], []⟩

/-- Lookup in the embedded Go map. -/
def lookupVal : List (GoStr × GoStr) → GoStr → Option GoStr
  | [], _ => none
  | (a, b) :: t, k => if a = k then some b else lookupVal t k

/-- Assignment `values[key] = value` on the embedded Go map when the key is
already bound. -/
def updateVal : List (GoStr × GoStr) → GoStr → GoStr → List (GoStr × GoStr)
  | [], k, v => [(k, v)]
  | (a, b) :: t, k, v => if a = k then (k, v) :: t else (a, b) :: updateVal t k v

/-- `Set` of `ordered_map.go`: append the key to the order list only when it
is not yet bound, then assign the value. -/
def OrderedMap.Set (om : OrderedMap) (key value : GoStr) : OrderedMap :=
  if (lookupVal om.values key).isSome then ⟨om.keys, updateVal om.values key value⟩
  else ⟨om.keys ++ [key], om.values ++ [(key, value)]⟩

/-- `Get` of `ordered_map.go` (the found flag is `isSome`). -/
def OrderedMap.Get (om : OrderedMap) (key : GoStr) : Option GoStr :=
  lookupVal om.values key

/-- `Keys` of `ordered_map.go`. -/
def OrderedMap.Keys (om : OrderedMap) : List GoStr := om.keys

/-- `Len` of `ordered_map.go` (`len(om.keys)`). -/
def OrderedMap.Len (om : OrderedMap) : Nat := om.keys.length

/-- Run a sequence of `Set` calls on a freshly created map. -/
def applySets (ops : List (GoStr × GoStr)) : OrderedMap :=
  ops.foldl (fun om kv => om.Set kv.1 kv.2) NewOrderedMap

/-! ### Path validation of `validateFilePath` and the file entry point -/

/-- Inner state machine of Go `filepath.Clean` (unix rules): backtracking of
the output buffer on a `..` element.  `rev` is the output so far, reversed;
`ex` is the byte just beyond the kept output (`out.index(out.w)`). -/
def backAux (dotdot : Nat) : GoStr → Nat → GoStr
  | [], _ => []
  | c :: r, ex => if (c :: r).length > dotdot ∧ ex ≠ 47 then backAux dotdot r c else c :: r

/-- The `..` backtracking step of `filepath.Clean`: drop the last output
byte, then keep dropping down to the last separator or to index `dotdot`. -/
def backtrack (out : GoStr) (dotdot : Nat) : GoStr :=
  match out.reverse with
  | [] => out
  | c :: r => (backAux dotdot r c).reverse

/-- Main loop of Go `filepath.Clean` (unix): skip separators, drop `.`
elements, backtrack or emit on `..` elements, copy other elements preceded
by a separator when needed.  The fuel argument makes the recursion
structural; fuel equal to the remaining length always suffices. -/
def cleanLoop (rooted : Bool) : Nat → GoStr → GoStr → Nat → GoStr
  | 0, _, out, _ => out
  | fuel + 1, rest, out, dotdot =>
    match rest with
    | [] => out
    | b :: t =>
      if b = 47 then cleanLoop rooted fuel t out dotdot
      else if b = 46 ∧ (t = [] ∨ t.head? = some 47) then cleanLoop rooted fuel t out dotdot
      else if b = 46 ∧ t.head? = some 46 ∧ (t.tail = [] ∨ t.tail.head? = some 47) then
        if out.length > dotdot then cleanLoop rooted fuel t.tail (backtrack out dotdot) dotdot
        else if rooted then cleanLoop rooted fuel t.tail out dotdot
        else
          let out2 := (if out.length > 0 then out ++ [47] else out) ++ [46, 46]
          cleanLoop rooted fuel t.tail out2 out2.length
      else
        let out2 := (if (rooted ∧ out.length ≠ 1) ∨ (¬rooted ∧ out.length ≠ 0)
                     then out ++ [47] else out) ++ (b :: t.takeWhile (fun c => !(c == 47)))
        cleanLoop rooted fuel (t.dropWhile (fun c => !(c == 47))) out2 dotdot

/-- Go `filepath.Clean` on unix: empty input yields `.`, a rooted path
starts the output with `/`, and an empty output yields `.`. -/
def goClean (path : GoStr) : GoStr :=
  if path = [] then goStr "."
  else
    let out :=
      if path.head? = some 47 then cleanLoop true path.length path.tail [47] 1
      else cleanLoop false path.length path [] 0
    if out = [] then goStr "." else out

/-- Go `strings.Contains(s, sub)`: `sub` occurs as a contiguous substring. -/
def goContains (s sub : GoStr) : Bool := decide (sub <:+: s)

/-- Go `filepath.Abs` (unix, current directory `cwd`): an absolute path is
cleaned, a relative path is joined to `cwd` and cleaned. -/
def goAbs (cwd p : GoStr) : GoStr :=
  if p.head? = some 47 then goClean p else goClean (cwd ++ [47] ++ p)

/-- `validateFilePath` of `flattener.go`: reject the empty path, clean the
path, reject a cleaned path containing `..`, and resolve to absolute. -/
def validateFilePath (cwd filePath : GoStr) : Except GoStr GoStr :=
  if filePath = [] then .error (goStr "file path cannot be empty")
  else if goContains (goClean filePath) (goStr "..") then
    .error (goStr "file path contains invalid directory traversal patterns")
  else .ok (goAbs cwd (goClean filePath))

/-- The filesystem as seen by `FlattenYAMLFile`: `os.Stat` yields a size (a
directory or missing file is an error), `os.ReadFile` yields content. -/
structure FS where
  stat : GoStr → Except GoStr Nat
  readFile : GoStr → Except GoStr GoStr

/-- `FlattenYAMLFile` of `flattener.go`.  Alongside the result we return
the trace of paths handed to `os.Stat` and `os.ReadFile`, in order, so that
theorems can state that no file was statted or read. -/
def FlattenYAMLFile (f : Flattener) (parse : GoStr → Except GoStr YamlNode)
    (fs : FS) (cwd filePath : GoStr) : Except GoStr FlatResult × List GoStr :=
  match validateFilePath cwd filePath with
  | .error e => (.error e, [])
  | .ok cleanPath =>
    match fs.stat cleanPath with
    | .error e => (.error (goStr "failed to access YAML file: " ++ e), [cleanPath])
    | .ok size =>
      if size > f.maxYAMLSize then
        (.error (goStr "YAML file size exceeds maximum allowed size of " ++
          numBytes f.maxYAMLSize ++ goStr " bytes"), [cleanPath])
      else
        match fs.readFile cleanPath with
        | .error e => (.error (goStr "failed to read YAML file: " ++ e), [cleanPath, cleanPath])
        | .ok content => (FlattenYAMLString f parse content, [cleanPath, cleanPath])

/-- Splitting a byte string at `/` separators (state: bytes of the current
segment, reversed). -/
def splitAux : GoStr → GoStr → List GoStr
  | [], acc => [acc.reverse]
  | b :: t, acc => if b = 47 then acc.reverse :: splitAux t [] else splitAux t (b :: acc)

/-- The `/`-separated segments of a byte string. -/
def splitOnSep (s : GoStr) : List GoStr := splitAux s []

/-- The path contains a literal `..` segment between separators. -/
def hasDotDotSegment (s : GoStr) : Prop := goStr ".." ∈ splitOnSep s

instance (s : GoStr) : Decidable (hasDotDotSegment s) := by
  unfold hasDotDotSegment; infer_instance

/-! ### Claim-side measuring definitions -/

/-- The key sanitizer as the specification describes it: delete every ASCII
control character (code points below 0x20 and 0x7F through 0x9F), then
truncate to at most 1000 characters.  Stated on bytes, where byte values
and code points agree for ASCII input. -/
def sanitizeKeySpec (key : GoStr) : GoStr :=
  (key.filter (fun b => !(b < 0x20 || (0x7F ≤ b && b ≤ 0x9F)))).take 1000

mutual

/-- Nesting depth in the counting of the specification: 0 at the root,
incremented once per `Mapping` or `Sequence` level; a document wrapper and
scalars add nothing, an alias counts as its target. -/
def nestingDepth : YamlNode → Nat
  | .document c => nestingDepthList c
  | .mapping c => 1 + nestingDepthList c
  | .sequence c => 1 + nestingDepthList c
  | .scalar _ _ => 0
  | .aliasTo t => nestingDepth t
  | .aliasNil => 0

/-- Maximum nesting depth over a child list. -/
def nestingDepthList : List YamlNode → Nat
  | [] => 0
  | x :: xs => max (nestingDepth x) (nestingDepthList xs)

end

/-- First-occurrence subsequence of a list: each element once, in the order
of first appearance, skipping elements already seen. -/
def firstOccAux (seen : List GoStr) : List GoStr → List GoStr
  | [] => []
  | a :: l => if a ∈ seen then firstOccAux seen l else a :: firstOccAux (a :: seen) l

/-- Each distinct element once, in first-appearance order. -/
def firstOcc (l : List GoStr) : List GoStr := firstOccAux [] l

/-- A plain string scalar used to populate test documents. -/
def xScalar : YamlNode := .scalar (goStr "!!str") (goStr "x")

/-- A chain of `k` singleton mappings (key `a`) ending in a scalar: the
canonical document nested to exactly depth `k` with a leaf at the bottom. -/
def chain : Nat → YamlNode
  | 0 => xScalar
  | k + 1 => .mapping [.scalar (goStr "!!str") (goStr "a"), chain k]

/-- A document wrapping `chain k`. -/
def chainDoc (k : Nat) : YamlNode := .document [chain k]

/-- A document holding a flat sequence of `n` scalar elements, which
flattens to entries `[0] … [n-1]`. -/
def seqDoc (n : Nat) : YamlNode := .document [.sequence (List.replicate n xScalar)]

/-- The flattening of the first `i` elements of a root-level sequence of
`x` scalars. -/
def seqResult (i : Nat) : FlatResult :=
  (List.range i).map (fun j => (sprintfIndex [] j, goStr "x"))

/-- Decimal value of a byte string, used to invert `numBytes`. -/
def bytesVal (l : GoStr) : Nat :=
  l.foldl (fun a b => a * 10 + (b - 48)) 0

/-! ### Lemmas on decimal rendering -/

theorem bytesVal_append_digit (l : GoStr) (x : Nat) :
    bytesVal (l ++ [x]) = bytesVal l * 10 + (x - 48) := by
  simp [bytesVal, List.foldl_append]

theorem bytesVal_numBytesAux : ∀ fuel n, n < fuel → bytesVal (numBytesAux fuel n) = n := by
  intro fuel
  induction fuel with
  | zero => intro n h; omega
  | succ f ih =>
    intro n h
    match n with
    | 0 => simp [numBytesAux, bytesVal]
    | m + 1 =>
      have hdiv : (m + 1) / 10 < m + 1 := Nat.div_lt_self (by omega) (by omega)
      have hlt : (m + 1) / 10 < f := by omega
      rw [show numBytesAux (f + 1) (m + 1) =
            numBytesAux f ((m + 1) / 10) ++ [(m + 1) % 10 + 48] from rfl,
        bytesVal_append_digit, ih _ hlt]
      omega

theorem bytesVal_numBytes (n : Nat) : bytesVal (numBytes n) = n := by
  by_cases h : n = 0
  · subst h; simp [numBytes, bytesVal]
  · rw [numBytes, if_neg h]
    exact bytesVal_numBytesAux (n + 1) n (by omega)

theorem numBytes_inj {a b : Nat} (h : numBytes a = numBytes b) : a = b := by
  have := congrArg bytesVal h
  rwa [bytesVal_numBytes, bytesVal_numBytes] at this

theorem sprintfIndex_inj {p : GoStr} {a b : Nat} (h : sprintfIndex p a = sprintfIndex p b) :
    a = b := by
  unfold sprintfIndex at h
  rw [List.append_assoc, List.append_assoc, List.append_assoc, List.append_assoc] at h
  have h2 := List.append_cancel_left h
  have h3 := List.append_cancel_left h2
  exact numBytes_inj (List.append_cancel_right h3)

/-! ### Lemmas on the embedded Go map -/

theorem mapSet_of_fresh (m : FlatResult) (k v : GoStr) (h : ∀ p ∈ m, p.1 ≠ k) :
    mapSet m k v = m ++ [(k, v)] := by
  induction m with
  | nil => rfl
  | cons hd t ih =>
    obtain ⟨k', v'⟩ := hd
    have hne : k' ≠ k := h (k', v') (List.mem_cons_self _ _)
    rw [mapSet, if_neg hne, List.cons_append, ih (fun p hp => h p (List.mem_cons_of_mem _ hp))]

/-! ### Lemmas on path splitting -/

theorem mem_splitAux_sub : ∀ (rest acc x : GoStr), x ∈ splitAux rest acc →
    x <:+: (acc.reverse ++ rest) := by
  intro rest
  induction rest with
  | nil =>
    intro acc x hx
    simp [splitAux] at hx
    subst hx
    simp
  | cons b t ih =>
    intro acc x hx
    rw [splitAux] at hx
    by_cases hb : b = 47
    · rw [if_pos hb] at hx
      rcases List.mem_cons.mp hx with h1 | h2
      · subst h1
        exact ⟨[], b :: t, by simp⟩
      · have h3 := ih [] x h2
        simp only [List.reverse_nil, List.nil_append] at h3
        obtain ⟨s, u, rfl⟩ := h3
        exact ⟨acc.reverse ++ b :: s, u, by simp⟩
    · rw [if_neg hb] at hx
      have h3 := ih (b :: acc) x hx
      simpa [List.append_assoc] using h3

theorem hasDotDotSegment_sub {s : GoStr} (h : hasDotDotSegment s) : goStr ".." <:+: s := by
  have h2 := mem_splitAux_sub s [] (goStr "..") h
  simpa using h2

theorem goContains_of_sub {s sub : GoStr} (h : sub <:+: s) : goContains s sub = true := by
  simp [goContains, h]

/-! ### Step lemmas for the traversal -/

theorem validate_ok {f : Flattener} {d n : Nat} (hd : d ≤ f.maxNestingDepth)
    (hn : n < f.maxResultSize) : validateDepthAndSize f d n = .ok () := by
  simp only [validateDepthAndSize]
  rw [if_neg (by omega), if_neg (by omega)]

theorem validate_depth_err {f : Flattener} {d n : Nat} (hd : d > f.maxNestingDepth) :
    validateDepthAndSize f d n = .error (depthLimitMsg f.maxNestingDepth) := by
  simp only [validateDepthAndSize]
  rw [if_pos hd]

theorem validate_size_err {f : Flattener} {d n : Nat} (hd : d ≤ f.maxNestingDepth)
    (hn : n ≥ f.maxResultSize) : validateDepthAndSize f d n = .error (sizeLimitMsg f.maxResultSize) := by
  simp only [validateDepthAndSize]
  rw [if_neg (by omega), if_pos (by omega)]

theorem flattenNode_scalar {f : Flattener} {d : Nat} {rs : FlatResult} (tag v pfx : GoStr)
    (hd : d ≤ f.maxNestingDepth) (hn : rs.length < f.maxResultSize) :
    flattenNodeWithDepth f (.scalar tag v) pfx rs d =
      if isNullScalar tag v then .ok (mapSet rs pfx []) else .ok (mapSet rs pfx v) := by
  rw [flattenNodeWithDepth, validate_ok hd hn]

theorem flattenNode_depth_err {f : Flattener} {d : Nat} {rs : FlatResult} (node : YamlNode)
    (pfx : GoStr) (hd : d > f.maxNestingDepth) :
    flattenNodeWithDepth f node pfx rs d = .error (depthLimitMsg f.maxNestingDepth) := by
  have hv : validateDepthAndSize f d rs.length = .error (depthLimitMsg f.maxNestingDepth) :=
    validate_depth_err hd
  cases node with
  | document c => cases c <;> rw [flattenNodeWithDepth, hv]
  | mapping c => rw [flattenNodeWithDepth, hv]
  | sequence c => rw [flattenNodeWithDepth, hv]
  | scalar tg v => rw [flattenNodeWithDepth, hv]
  | aliasTo t => rw [flattenNodeWithDepth, hv]
  | aliasNil => rw [flattenNodeWithDepth, hv]

theorem flattenNode_size_err {f : Flattener} {d : Nat} {rs : FlatResult} (node : YamlNode)
    (pfx : GoStr) (hd : d ≤ f.maxNestingDepth) (hn : rs.length ≥ f.maxResultSize) :
    flattenNodeWithDepth f node pfx rs d = .error (sizeLimitMsg f.maxResultSize) := by
  have hv : validateDepthAndSize f d rs.length = .error (sizeLimitMsg f.maxResultSize) :=
    validate_size_err hd hn
  cases node with
  | document c => cases c <;> rw [flattenNodeWithDepth, hv]
  | mapping c => rw [flattenNodeWithDepth, hv]
  | sequence c => rw [flattenNodeWithDepth, hv]
  | scalar tg v => rw [flattenNodeWithDepth, hv]
  | aliasTo t => rw [flattenNodeWithDepth, hv]
  | aliasNil => rw [flattenNodeWithDepth, hv]

theorem flattenNode_mapping {f : Flattener} {d : Nat} {rs : FlatResult} (c : List YamlNode)
    (pfx : GoStr) (hd : d ≤ f.maxNestingDepth) (hn : rs.length < f.maxResultSize) :
    flattenNodeWithDepth f (.mapping c) pfx rs d =
      flattenMappingNodeWithDepth f c pfx rs (d + 1) := by
  rw [flattenNodeWithDepth, validate_ok hd hn]

theorem flattenNode_sequence {f : Flattener} {d : Nat} {rs : FlatResult} (c : List YamlNode)
    (pfx : GoStr) (hd : d ≤ f.maxNestingDepth) (hn : rs.length < f.maxResultSize) :
    flattenNodeWithDepth f (.sequence c) pfx rs d =
      flattenSequenceNodeWithDepth f c pfx rs (d + 1) 0 := by
  rw [flattenNodeWithDepth, validate_ok hd hn]

theorem flattenYAMLNode_document (f : Flattener) (x : YamlNode) (h : 0 < f.maxResultSize) :
    FlattenYAMLNode f (.document [x]) = flattenNodeWithDepth f x [] [] 0 := by
  rw [FlattenYAMLNode, flattenNodeWithDepth, validate_ok (Nat.zero_le _) (by simpa using h)]

theorem flattenMapping_nil (f : Flattener) (pfx : GoStr) (rs : FlatResult) (d : Nat) :
    flattenMappingNodeWithDepth f [] pfx rs d = .ok rs := rfl

theorem flattenMapping_cons (f : Flattener) (tg kv : GoStr) (vn : YamlNode)
    (rest : List YamlNode) (pfx : GoStr) (rs : FlatResult) (d : Nat) :
    flattenMappingNodeWithDepth f (.scalar tg kv :: vn :: rest) pfx rs d =
      match flattenNodeWithDepth f vn ( buildPrefix pfx (sanitizeKey kv)) rs d with
      | .error e => .error e
      | .ok rs2 => flattenMappingNodeWithDepth f rest pfx rs2 d := rfl

theorem flattenSeq_nil (f : Flattener) (pfx : GoStr) (rs : FlatResult) (d i : Nat) :
    flattenSequenceNodeWithDepth f [] pfx rs d i = .ok rs := rfl

theorem flattenSeq_cons (f : Flattener) (c : YamlNode) (rest : List YamlNode)
    (pfx : GoStr) (rs : FlatResult) (d i : Nat) :
    flattenSequenceNodeWithDepth f (c :: rest) pfx rs d i =
      match flattenNodeWithDepth f c (sprintfIndex pfx i) rs d with
      | .error e => .error e
      | .ok rs2 => flattenSequenceNodeWithDepth f rest pfx rs2 d (i + 1) := rfl

/-! ### The chain documents: depth boundary -/

theorem nestingDepth_chain : ∀ k, nestingDepth (chain k) = k := by
  intro k
  induction k with
  | zero => rfl
  | succ n ih =>
    show nestingDepth (.mapping [.scalar (goStr "!!str") (goStr "a"), chain n]) = n + 1
    rw [nestingDepth]
    simp only [nestingDepthList, nestingDepth, ih]
    omega

theorem chain_ok (f : Flattener) : ∀ k d pfx rs, d + k ≤ f.maxNestingDepth →
    rs.length < f.maxResultSize →
    ∃ rs2, flattenNodeWithDepth f (chain k) pfx rs d = .ok rs2 := by
  intro k
  induction k with
  | zero =>
    intro d pfx rs hd hn
    rw [show chain 0 = xScalar from rfl, xScalar,
      flattenNode_scalar _ _ _ (by omega) hn,
      if_neg (by decide : ¬ isNullScalar (goStr "!!str") (goStr "x"))]
    exact ⟨_, rfl⟩
  | succ n ih =>
    intro d pfx rs hd hn
    obtain ⟨rs2, h2⟩ := ih (d + 1) ( buildPrefix pfx (sanitizeKey (goStr "a"))) rs (by omega) hn
    refine ⟨rs2, ?_⟩
    rw [show chain (n + 1) = .mapping [.scalar (goStr "!!str") (goStr "a"), chain n] from rfl,
      flattenNode_mapping _ _ (by omega) hn, flattenMapping_cons, h2]
    rfl

theorem chain_err (f : Flattener) : ∀ k d pfx rs, d + k = f.maxNestingDepth + 1 →
    rs.length < f.maxResultSize →
    flattenNodeWithDepth f (chain k) pfx rs d = .error (depthLimitMsg f.maxNestingDepth) := by
  intro k
  induction k with
  | zero =>
    intro d pfx rs hd hn
    exact flattenNode_depth_err _ _ (by omega)
  | succ n ih =>
    intro d pfx rs hd hn
    rw [show chain (n + 1) = .mapping [.scalar (goStr "!!str") (goStr "a"), chain n] from rfl,
      flattenNode_mapping _ _ (by omega) hn, flattenMapping_cons,
      ih (d + 1) ( buildPrefix pfx (sanitizeKey (goStr "a"))) rs (by omega) hn]

/-! ### The flat sequence documents: size boundary -/

/-- The flattener of the size-boundary claim: result size limit `S`, other
limits at their defaults. -/
def sizeFlattener (S : Nat) : Flattener := ⟨100, S, 10 * 1024 * 1024⟩

theorem seqResult_length (i : Nat) : (seqResult i).length = i := by
  simp [seqResult]

theorem seqResult_fresh (i : Nat) : ∀ p ∈ seqResult i, p.1 ≠ sprintfIndex [] i := by
  intro p hp
  simp only [seqResult, List.mem_map, List.mem_range] at hp
  obtain ⟨j, hj, rfl⟩ := hp
  intro hEq
  have := sprintfIndex_inj hEq
  omega

theorem seqResult_succ (i : Nat) :
    seqResult i ++ [(sprintfIndex [] i, goStr "x")] = seqResult (i + 1) := by
  simp [seqResult, List.range_succ]

theorem seq_ok (S : Nat) : ∀ n i, i + n ≤ S →
    flattenSequenceNodeWithDepth (sizeFlattener S) (List.replicate n xScalar) [] (seqResult i) 1 i
      = .ok (seqResult (i + n)) := by
  intro n
  induction n with
  | zero =>
    intro i h
    rw [List.replicate_zero, flattenSeq_nil]
    rfl
  | succ m ih =>
    intro i h
    rw [List.replicate_succ, xScalar, flattenSeq_cons,
      flattenNode_scalar _ _ _ (by simp [sizeFlattener]) (by rw [seqResult_length]; simp [sizeFlattener]; omega),
      if_neg (by decide : ¬ isNullScalar (goStr "!!str") (goStr "x")),
      mapSet_of_fresh _ _ _ (seqResult_fresh i), seqResult_succ]
    show flattenSequenceNodeWithDepth (sizeFlattener S) (List.replicate m xScalar) []
      (seqResult (i + 1)) 1 (i + 1) = .ok (seqResult (i + (m + 1)))
    rw [ih (i + 1) (by omega), show i + 1 + m = i + (m + 1) from by omega]

theorem seq_err (S : Nat) (rest : List YamlNode) (rs : FlatResult) (i : Nat)
    (hn : rs.length ≥ S) :
    flattenSequenceNodeWithDepth (sizeFlattener S) (xScalar :: rest) [] rs 1 i
      = .error (sizeLimitMsg S) := by
  rw [xScalar, flattenSeq_cons,
    flattenNode_size_err _ _ (by simp [sizeFlattener]) (by simpa [sizeFlattener] using hn)]
  rfl

/-! ### Lemmas on the ordered map -/

/-- The representation invariant of `OrderedMap`: a key is bound in the
value map exactly when it occurs in the order list. -/
def OMInv (om : OrderedMap) : Prop :=
  ∀ k, (lookupVal om.values k).isSome ↔ k ∈ om.keys

theorem lookupVal_append_isSome (l : List (GoStr × GoStr)) (k v j : GoStr) :
    (lookupVal (l ++ [(k, v)]) j).isSome ↔ (lookupVal l j).isSome ∨ j = k := by
  induction l with
  | nil =>
    simp only [List.nil_append, lookupVal]
    by_cases h : k = j
    · subst h; simp [lookupVal]
    · rw [if_neg h]
      simp [lookupVal, Ne.symm h]
  | cons hd t ih =>
    obtain ⟨a, b⟩ := hd
    by_cases h : a = j
    · subst h
      simp [lookupVal]
    · simp only [List.cons_append, lookupVal, if_neg h]
      exact ih

theorem lookupVal_updateVal_isSome (l : List (GoStr × GoStr)) (k v j : GoStr) :
    (lookupVal (updateVal l k v) j).isSome ↔ (lookupVal l j).isSome ∨ j = k := by
  induction l with
  | nil =>
    simp only [updateVal, lookupVal]
    by_cases h : k = j
    · subst h; simp [lookupVal]
    · rw [if_neg h]
      simp [lookupVal, Ne.symm h]
  | cons hd t ih =>
    obtain ⟨a, b⟩ := hd
    by_cases h : a = k
    · subst h
      simp only [updateVal, if_pos rfl, lookupVal]
      by_cases h2 : a = j
      · subst h2; simp [lookupVal]
      · rw [if_neg h2, if_neg h2]
        simp [Ne.symm h2]
    · simp only [updateVal, if_neg h, lookupVal]
      by_cases h2 : a = j
      · simp [if_pos h2]
      · rw [if_neg h2, if_neg h2]
        exact ih

theorem lookupVal_updateVal_self (l : List (GoStr × GoStr)) (k v : GoStr) :
    (lookupVal l k).isSome → lookupVal (updateVal l k v) k = some v := by
  induction l with
  | nil => simp [lookupVal]
  | cons hd t ih =>
    obtain ⟨a, b⟩ := hd
    by_cases h : a = k
    · subst h
      intro _
      simp [updateVal, lookupVal]
    · simp only [lookupVal, if_neg h, updateVal, if_neg h]
      exact ih

theorem set_mem (om : OrderedMap) (k v : GoStr) (hinv : OMInv om) (hk : k ∈ om.keys) :
    (om.Set k v).keys = om.keys ∧ OMInv (om.Set k v) ∧ (om.Set k v).Get k = some v := by
  have hs : (lookupVal om.values k).isSome = true := (hinv k).mpr hk
  rw [OrderedMap.Set, if_pos hs]
  refine ⟨rfl, ?_, ?_⟩
  · intro j
    simp only
    rw [lookupVal_updateVal_isSome]
    constructor
    · rintro (h1 | rfl)
      · exact (hinv j).mp h1
      · exact hk
    · intro h1
      exact Or.inl ((hinv j).mpr h1)
  · exact lookupVal_updateVal_self om.values k v hs

theorem set_new (om : OrderedMap) (k v : GoStr) (hinv : OMInv om) (hk : k ∉ om.keys) :
    (om.Set k v).keys = om.keys ++ [k] ∧ OMInv (om.Set k v) := by
  have hs : ¬ (lookupVal om.values k).isSome = true := fun h => hk ((hinv k).mp h)
  rw [OrderedMap.Set, if_neg hs]
  refine ⟨rfl, ?_⟩
  intro j
  simp only
  rw [lookupVal_append_isSome, List.mem_append, List.mem_singleton]
  constructor
  · rintro (h1 | rfl)
    · exact Or.inl ((hinv j).mp h1)
    · exact Or.inr rfl
  · rintro (h1 | rfl)
    · exact Or.inl ((hinv j).mpr h1)
    · exact Or.inr rfl

theorem firstOccAux_congr (l : List GoStr) : ∀ s1 s2, (∀ x, x ∈ s1 ↔ x ∈ s2) →
    firstOccAux s1 l = firstOccAux s2 l := by
  induction l with
  | nil => intro s1 s2 _; rfl
  | cons a t ih =>
    intro s1 s2 h
    simp only [firstOccAux]
    by_cases ha : a ∈ s1
    · rw [if_pos ha, if_pos ((h a).mp ha)]
      exact ih s1 s2 h
    · rw [if_neg ha, if_neg (fun hb => ha ((h a).mpr hb))]
      refine congrArg _ (ih _ _ ?_)
      intro x
      simp only [List.mem_cons]
      exact or_congr Iff.rfl (h x)

theorem foldSet_keys : ∀ (ops : List (GoStr × GoStr)) (om : OrderedMap), OMInv om →
    (ops.foldl (fun m kv => m.Set kv.1 kv.2) om).keys
        = om.keys ++ firstOccAux om.keys (ops.map Prod.fst) ∧
      OMInv (ops.foldl (fun m kv => m.Set kv.1 kv.2) om) := by
  intro ops
  induction ops with
  | nil =>
    intro om hinv
    simp only [List.foldl_nil, List.map_nil, firstOccAux, List.append_nil]
    exact ⟨by simp, hinv⟩
  | cons kv rest ih =>
    intro om hinv
    obtain ⟨k, v⟩ := kv
    rw [List.foldl_cons, List.map_cons]
    by_cases hk : k ∈ om.keys
    · obtain ⟨hkeys, hinv2, _⟩ := set_mem om k v hinv hk
      obtain ⟨ih1, ih2⟩ := ih (om.Set k v) hinv2
      rw [ih1, hkeys]
      simp only [firstOccAux, if_pos hk]
      exact ⟨by simp, ih2⟩
    · obtain ⟨hkeys, hinv2⟩ := set_new om k v hinv hk
      obtain ⟨ih1, ih2⟩ := ih (om.Set k v) hinv2
      rw [ih1, hkeys]
      simp only [firstOccAux, if_neg hk]
      refine ⟨?_, ih2⟩
      rw [List.append_assoc, List.singleton_append]
      refine congrArg _ (congrArg _ ?_)
      refine firstOccAux_congr _ _ _ ?_
      intro x
      simp only [List.mem_append, List.mem_singleton, List.mem_cons]
      tauto

theorem OMInv_new : OMInv NewOrderedMap := by
  intro k
  simp [NewOrderedMap, lookupVal]

theorem applySets_keys (ops : List (GoStr × GoStr)) :
    (applySets ops).keys = firstOcc (ops.map Prod.fst) := by
  have := foldSet_keys ops NewOrderedMap OMInv_new
  rw [applySets, this.1]
  rfl

theorem applySets_inv (ops : List (GoStr × GoStr)) : OMInv (applySets ops) :=
  (foldSet_keys ops NewOrderedMap OMInv_new).2

theorem firstOccAux_nodup : ∀ (l seen : List GoStr),
    (firstOccAux seen l).Nodup ∧ ∀ x ∈ firstOccAux seen l, x ∉ seen := by
  intro l
  induction l with
  | nil => intro seen; exact ⟨List.nodup_nil, by simp [firstOccAux]⟩
  | cons a t ih =>
    intro seen
    simp only [firstOccAux]
    by_cases ha : a ∈ seen
    · rw [if_pos ha]
      exact ih seen
    · rw [if_neg ha]
      obtain ⟨h1, h2⟩ := ih (a :: seen)
      refine ⟨List.nodup_cons.mpr ⟨fun hmem => ?_, h1⟩, ?_⟩
      · exact h2 a hmem (List.mem_cons_self a seen)
      · intro x hx
        rcases List.mem_cons.mp hx with rfl | hx2
        · exact ha
        · intro hxs
          exact h2 x hx2 (List.mem_cons_of_mem _ hxs)

theorem firstOccAux_toFinset : ∀ (l seen : List GoStr),
    (firstOccAux seen l).toFinset = l.toFinset \ seen.toFinset := by
  intro l
  induction l with
  | nil => intro seen; simp [firstOccAux]
  | cons a t ih =>
    intro seen
    simp only [firstOccAux]
    by_cases ha : a ∈ seen
    · rw [if_pos ha, ih seen, List.toFinset_cons,
        Finset.insert_sdiff_of_mem _ (List.mem_toFinset.mpr ha)]
    · rw [if_neg ha, List.toFinset_cons, ih (a :: seen), List.toFinset_cons, List.toFinset_cons]
      ext x
      simp only [Finset.mem_insert, Finset.mem_sdiff, List.mem_toFinset]
      by_cases hx : x = a
      · subst hx; simp [ha]
      · simp [hx]

theorem flattenSeq_append (f : Flattener) (l1 : List YamlNode) :
    ∀ (l2 : List YamlNode) (pfx : GoStr) (rs : FlatResult) (d i : Nat),
    flattenSequenceNodeWithDepth f (l1 ++ l2) pfx rs d i =
      match flattenSequenceNodeWithDepth f l1 pfx rs d i with
      | .error e => .error e
      | .ok rs2 => flattenSequenceNodeWithDepth f l2 pfx rs2 d (i + l1.length) := by
  induction l1 with
  | nil =>
    intro l2 pfx rs d i
    rw [List.nil_append, flattenSeq_nil]
    rfl
  | cons c t ih =>
    intro l2 pfx rs d i
    rw [List.cons_append, flattenSeq_cons, flattenSeq_cons]
    cases h : flattenNodeWithDepth f c (sprintfIndex pfx i) rs d with
    | error e => rfl
    | ok rs2 =>
      simp only
      rw [ih l2 pfx rs2 d (i + 1), List.length_cons,
        show i + 1 + t.length = i + (t.length + 1) from by omega]

/-! ### Claim theorems -/

/-- C7: key sanitization is idempotent: for every byte string `x`,
`sanitizeKey (sanitizeKey x) = sanitizeKey x` — removing NUL bytes from an
already NUL-free string changes nothing, and the truncated result is at most
1000 bytes long, so the second truncation is a no-op. -/
theorem c7_sanitize_idempotent (x : GoStr) : sanitizeKey (sanitizeKey x) = sanitizeKey x := by
  simp only [sanitizeKey]
  by_cases h : (x.filter (fun b => !(b == 0))).length > 1000
  · rw [if_pos h]
    have hfilt : ((x.filter (fun b => !(b == 0))).take 1000).filter (fun b => !(b == 0))
        = (x.filter (fun b => !(b == 0))).take 1000 := by
      apply List.filter_eq_self.mpr
      intro a ha
      have ha2 : a ∈ x.filter (fun b => !(b == 0)) := List.mem_of_mem_take ha
      exact (List.mem_filter.mp ha2).2
    rw [hfilt, if_neg (by have := List.length_take_le 1000 (x.filter (fun b => !(b == 0))); omega)]
  · rw [if_neg h]
    have hfilt : (x.filter (fun b => !(b == 0))).filter (fun b => !(b == 0))
        = x.filter (fun b => !(b == 0)) := by
      apply List.filter_eq_self.mpr
      intro a ha
      exact (List.mem_filter.mp ha).2
    rw [hfilt, if_neg h]

/-- C2: the claim states that `sanitizeKey` deletes every ASCII control
character (below 0x20 and 0x7F through 0x9F) and truncates; the code in
`internal/flattener/flattener.go` removes only NUL bytes, so the tab in
`"\tkey_with_tab"` — a seed input of the repository test `FuzzSanitizeKey`
test, which asserts the result is free of control characters — survives
sanitization: the code contradicts its own test suite. -/
theorem c2_sanitize_keeps_tab :
    sanitizeKey (goStr "\tkey_with_tab") = goStr "\tkey_with_tab" ∧
    sanitizeKeySpec (goStr "\tkey_with_tab") = goStr "key_with_tab" ∧
    sanitizeKey (goStr "\tkey_with_tab") ≠ sanitizeKeySpec (goStr "\tkey_with_tab") :=
  ⟨rfl, rfl, by decide⟩

/-- C6: for every sequence of `Set` calls on a fresh `OrderedMap`, `Keys()`
lists each distinct key exactly once in first-insertion order, `Len()`
equals the number of distinct keys ever set, and a `Set` on a present key
changes its value but neither the key list nor its order. -/
theorem c6_ordered_map_invariants (ops : List (GoStr × GoStr)) :
    (applySets ops).Keys = firstOcc (ops.map Prod.fst) ∧
    (applySets ops).Keys.Nodup ∧
    (applySets ops).Keys.toFinset = (ops.map Prod.fst).toFinset ∧
    (applySets ops).Len = (ops.map Prod.fst).toFinset.card ∧
    (∀ k v, k ∈ (applySets ops).Keys →
      ((applySets ops).Set k v).Keys = (applySets ops).Keys ∧
      ((applySets ops).Set k v).Get k = some v) := by
  have hkeys : (applySets ops).Keys = firstOcc (ops.map Prod.fst) := applySets_keys ops
  have hinv := applySets_inv ops
  have hnodup : (firstOcc (ops.map Prod.fst)).Nodup := (firstOccAux_nodup (ops.map Prod.fst) []).1
  have htf : (firstOcc (ops.map Prod.fst)).toFinset = (ops.map Prod.fst).toFinset := by
    rw [firstOcc, firstOccAux_toFinset]
    simp
  refine ⟨hkeys, ?_, ?_, ?_, ?_⟩
  · rw [hkeys]; exact hnodup
  · rw [hkeys, htf]
  · show (applySets ops).keys.length = (ops.map Prod.fst).toFinset.card
    rw [show (applySets ops).keys = (applySets ops).Keys from rfl, hkeys, ← htf,
      List.toFinset_card_of_nodup hnodup]
  · intro k v hk
    obtain ⟨h1, _, h3⟩ := set_mem (applySets ops) k v hinv hk
    exact ⟨h1, h3⟩

/-- Concrete input for the ordered map claim. -/
def c6ExampleOps : List (GoStr × GoStr) :=
  [(goStr "a", goStr "1"), (goStr "b", goStr "2"), (goStr "a", goStr "3")]

/-- C6 witness: on the run `Set a 1; Set b 2; Set a 3`, the keys are `a, b`
in first-insertion order, `Len` is 2, and another `Set` on `a` keeps the key
order while updating the value. -/
theorem c6_ordered_map_invariants_witness :
    (applySets c6ExampleOps).Keys = [goStr "a", goStr "b"] ∧
    (applySets c6ExampleOps).Len = 2 ∧
    ((applySets c6ExampleOps).Set (goStr "a") (goStr "9")).Keys = (applySets c6ExampleOps).Keys ∧
    ((applySets c6ExampleOps).Set (goStr "a") (goStr "9")).Get (goStr "a") = some (goStr "9") := by
  obtain ⟨h1, _, _, h4, h5⟩ := c6_ordered_map_invariants c6ExampleOps
  obtain ⟨h6, h7⟩ := h5 (goStr "a") (goStr "9") (by rw [h1]; decide)
  refine ⟨by rw [h1]; decide, by rw [h4]; decide, h6, h7⟩

/-- C9: an empty mapping or empty sequence, at any position within the depth
and size limits, contributes no entry; in particular flattening the document
`{}` (or `[]`) yields a result with zero entries. -/
theorem c9_empty_containers (f : Flattener) (pfx : GoStr) (rs : FlatResult) (d : Nat)
    (hd : d ≤ f.maxNestingDepth) (hn : rs.length < f.maxResultSize) :
    flattenNodeWithDepth f (.mapping []) pfx rs d = .ok rs ∧
    flattenNodeWithDepth f (.sequence []) pfx rs d = .ok rs ∧
    FlattenYAMLNode f (.document [.mapping []]) = .ok [] ∧
    FlattenYAMLNode f (.document [.sequence []]) = .ok [] := by
  have h0 : 0 < f.maxResultSize := by omega
  have h0l : ([] : FlatResult).length < f.maxResultSize := by simpa using h0
  refine ⟨?_, ?_, ?_, ?_⟩
  · rw [flattenNode_mapping _ _ hd hn, flattenMapping_nil]
  · rw [flattenNode_sequence _ _ hd hn, flattenSeq_nil]
  · rw [flattenYAMLNode_document _ _ h0, flattenNode_mapping _ _ (Nat.zero_le _) h0l,
      flattenMapping_nil]
  · rw [flattenYAMLNode_document _ _ h0, flattenNode_sequence _ _ (Nat.zero_le _) h0l,
      flattenSeq_nil]

/-- C9 witness: with the default limits, an empty mapping nested under the
prefix `a` adds nothing, and flattening the document `{}` yields zero
entries. -/
theorem c9_empty_containers_witness :
    flattenNodeWithDepth NewFlattener (.mapping []) (goStr "a") [] 0 = .ok [] ∧
    FlattenYAMLNode NewFlattener (.document [.mapping []]) = .ok [] := by
  obtain ⟨h1, _, h3, _⟩ := c9_empty_containers NewFlattener (goStr "a") [] 0
    (by decide) (by decide)
  exact ⟨h1, h3⟩

/-- C10: flattening a document whose root is a single scalar succeeds and
yields exactly one pair whose key is the empty string and whose value is the
formatted scalar — keys of the public result are not guaranteed non-empty. -/
theorem c10_root_scalar (f : Flattener) (tag v : GoStr) (h : 0 < f.maxResultSize) :
    FlattenYAMLNode f (.document [.scalar tag v]) =
      .ok [([], if isNullScalar tag v then [] else v)] := by
  rw [flattenYAMLNode_document _ _ h,
    flattenNode_scalar _ _ _ (Nat.zero_le _) (by simpa using h)]
  by_cases hnull : isNullScalar tag v
  · rw [if_pos hnull, if_pos hnull]
    rfl
  · rw [if_neg hnull, if_neg hnull]
    rfl

/-- C10 witness: the scalar document `hello` flattens to the single pair
with empty key and value `hello` under the default configuration. -/
theorem c10_root_scalar_witness :
    FlattenYAMLNode NewFlattener (.document [.scalar (goStr "!!str") (goStr "hello")]) =
      .ok [([], goStr "hello")] := by
  have h := c10_root_scalar NewFlattener (goStr "!!str") (goStr "hello") (by decide)
  rw [if_neg (by decide : ¬ isNullScalar (goStr "!!str") (goStr "hello"))] at h
  exact h

/-- C8: path construction — a mapping key under an empty parent yields the
sanitized key with no leading dot, under a non-empty parent it yields
parent, dot, sanitized key; a sequence element yields parent immediately
followed by the bracketed base-10 index; the traversal uses exactly these
paths for its entries. -/
theorem c8_path_building (f : Flattener) (pfx kv tg v tagv : GoStr) (i : Nat)
    (hnull : ¬ isNullScalar tagv v) (hdep : 1 ≤ f.maxNestingDepth)
    (hsz : 0 < f.maxResultSize) :
    buildPrefix [] kv = kv ∧
    (pfx ≠ [] → buildPrefix pfx kv = pfx ++ [46] ++ kv) ∧
    sprintfIndex pfx i = pfx ++ [91] ++ numBytes i ++ [93] ∧
    flattenNodeWithDepth f (.mapping [.scalar tg kv, .scalar tagv v]) pfx [] 0
      = .ok [( buildPrefix pfx (sanitizeKey kv), v)] ∧
    flattenNodeWithDepth f (.sequence [.scalar tagv v]) pfx [] 0
      = .ok [(sprintfIndex pfx 0, v)] := by
  have h0l : ([] : FlatResult).length < f.maxResultSize := by simpa using hsz
  refine ⟨rfl, ?_, rfl, ?_, ?_⟩
  · intro hp
    rw [ buildPrefix, if_neg hp]
  · rw [flattenNode_mapping _ _ (Nat.zero_le _) h0l, flattenMapping_cons,
      flattenNode_scalar _ _ _ (by omega) h0l, if_neg hnull]
    rfl
  · rw [flattenNode_sequence _ _ (Nat.zero_le _) h0l, flattenSeq_cons,
      flattenNode_scalar _ _ _ (by omega) h0l, if_neg hnull]
    rfl

/-- C8 witness: under parent `a.b`, key `k` yields path `a.b.k`, index 0
yields `a.b[0]`, and flattening the corresponding singleton containers
produces entries at exactly those paths. -/
theorem c8_path_building_witness :
    buildPrefix (goStr "a.b") (goStr "k") = goStr "a.b.k" ∧
    sprintfIndex (goStr "a.b") 0 = goStr "a.b[0]" ∧
    flattenNodeWithDepth NewFlattener
      (.mapping [.scalar (goStr "!!str") (goStr "k"), .scalar (goStr "!!str") (goStr "v")])
      (goStr "a.b") [] 0 = .ok [(goStr "a.b.k", goStr "v")] ∧
    flattenNodeWithDepth NewFlattener (.sequence [.scalar (goStr "!!str") (goStr "v")])
      (goStr "a.b") [] 0 = .ok [(goStr "a.b[0]", goStr "v")] := by
  obtain ⟨h1, h2, h3, h4, h5⟩ := c8_path_building NewFlattener (goStr "a.b") (goStr "k")
    (goStr "!!str") (goStr "v") (goStr "!!str") 0 (by decide) (by decide) (by decide)
  have hb : buildPrefix (goStr "a.b") (sanitizeKey (goStr "k")) = goStr "a.b.k" := by decide
  have hs : sprintfIndex (goStr "a.b") 0 = goStr "a.b[0]" := by decide
  rw [hb] at h4
  rw [hs] at h5
  exact ⟨by rw [h2 (by decide)]; decide, hs, h4, h5⟩

/-- C3 counterexample: the claim says a string-typed scalar whose text is
`null` is returned verbatim, but the scalar case of `flattenNodeWithDepth`
matches on the value text as well as the tag, so the `!!str` scalar `null`
flattens to the empty string, not to `null`. -/
theorem c3_string_null_counterexample :
    FlattenYAMLNode NewFlattener (.document [.scalar (goStr "!!str") (goStr "null")])
      = .ok [([], [])] ∧
    ([] : GoStr) ≠ goStr "null" :=
  ⟨rfl, by decide⟩

/-- C3 amended: a null-tagged scalar maps to the empty string, and a string
scalar is returned verbatim except when its text is `null`, `~` or empty, in
which case it is also mapped to the empty string (the code tests the scalar
text as well as the tag). -/
theorem c3_value_formatting_amended (f : Flattener) (tag v : GoStr) (h : 0 < f.maxResultSize) :
    FlattenYAMLNode f (.document [.scalar (goStr "!!null") v]) = .ok [([], [])] ∧
    FlattenYAMLNode f (.document [.scalar (goStr "!!str") (goStr "null")]) = .ok [([], [])] ∧
    FlattenYAMLNode f (.document [.scalar (goStr "!!str") (goStr "~")]) = .ok [([], [])] ∧
    FlattenYAMLNode f (.document [.scalar (goStr "!!str") []]) = .ok [([], [])] ∧
    (¬ isNullScalar tag v → FlattenYAMLNode f (.document [.scalar tag v]) = .ok [([], v)]) := by
  have h0l : ([] : FlatResult).length < f.maxResultSize := by simpa using h
  refine ⟨?_, ?_, ?_, ?_, ?_⟩
  · rw [flattenYAMLNode_document _ _ h, flattenNode_scalar _ _ _ (Nat.zero_le _) h0l,
      if_pos (show isNullScalar (goStr "!!null") v from Or.inl rfl)]
    rfl
  · rw [flattenYAMLNode_document _ _ h, flattenNode_scalar _ _ _ (Nat.zero_le _) h0l,
      if_pos (by decide : isNullScalar (goStr "!!str") (goStr "null"))]
    rfl
  · rw [flattenYAMLNode_document _ _ h, flattenNode_scalar _ _ _ (Nat.zero_le _) h0l,
      if_pos (by decide : isNullScalar (goStr "!!str") (goStr "~"))]
    rfl
  · rw [flattenYAMLNode_document _ _ h, flattenNode_scalar _ _ _ (Nat.zero_le _) h0l,
      if_pos (by decide : isNullScalar (goStr "!!str") [])]
    rfl
  · intro hnull
    rw [flattenYAMLNode_document _ _ h, flattenNode_scalar _ _ _ (Nat.zero_le _) h0l,
      if_neg hnull]
    rfl

/-- C3 witness: an ordinary string scalar such as `world` is returned
verbatim, and a null-tagged scalar maps to the empty string. -/
theorem c3_value_formatting_amended_witness :
    FlattenYAMLNode NewFlattener (.document [.scalar (goStr "!!str") (goStr "world")])
      = .ok [([], goStr "world")] ∧
    FlattenYAMLNode NewFlattener (.document [.scalar (goStr "!!null") (goStr "~")])
      = .ok [([], [])] := by
  obtain ⟨h1, _, _, _, h5⟩ := c3_value_formatting_amended NewFlattener (goStr "!!str")
    (goStr "world") (by decide)
  exact ⟨h5 (by decide), h1⟩

/-- C4 counterexample: with maximum depth 1, the document `{a: {}}` — two
mapping levels, hence nested one level deeper than the configured maximum —
flattens successfully to an empty result instead of failing with a
depth-limit error, because the deepest mapping is empty and the depth check
at its entry still sees depth 1. -/
theorem c4_depth_boundary_counterexample :
    nestingDepth (.mapping [.scalar (goStr "!!str") (goStr "a"), .mapping []]) = 2 ∧
    FlattenYAMLNode ⟨1, 100000, 10 * 1024 * 1024⟩
      (.document [.mapping [.scalar (goStr "!!str") (goStr "a"), .mapping []]]) = .ok [] :=
  ⟨rfl, rfl⟩

/-- C4 amended: for every configured maximum depth `D`, the canonical
document nested to exactly depth `D` with a scalar leaf at the bottom
flattens successfully, and the same document one mapping level deeper fails
with the depth-limit error naming `D`; a deeper document whose extra level
is an empty container is entered at depth `D` and can still succeed. -/
theorem c4_depth_boundary_amended (D : Nat) :
    nestingDepth (chain D) = D ∧
    (∃ out, FlattenYAMLNode ⟨D, 100000, 10 * 1024 * 1024⟩ (chainDoc D) = .ok out) ∧
    FlattenYAMLNode ⟨D, 100000, 10 * 1024 * 1024⟩ (chainDoc (D + 1))
      = .error (depthLimitMsg D) := by
  refine ⟨nestingDepth_chain D, ?_, ?_⟩
  · obtain ⟨rs2, h2⟩ := chain_ok ⟨D, 100000, 10 * 1024 * 1024⟩ D 0 [] []
      (by simp) (by norm_num)
    exact ⟨rs2, by rw [chainDoc, flattenYAMLNode_document _ _ (by norm_num), h2]⟩
  · rw [chainDoc, flattenYAMLNode_document _ _ (by norm_num),
      chain_err ⟨D, 100000, 10 * 1024 * 1024⟩ (D + 1) 0 [] [] (by simp) (by norm_num)]

/-- C1 counterexample: the guard runs at the entry of every node, not only
before entry writes, so the document `[x, {}]` — which yields exactly one
pair — fails under maximum result size 1: after the single write, the
trailing empty mapping is still visited and the size check fires. -/
theorem c1_size_boundary_counterexample :
    FlattenYAMLNode NewFlattener (.document [.sequence [xScalar, .mapping []]])
      = .ok [(goStr "[0]", goStr "x")] ∧
    FlattenYAMLNode ⟨100, 1, 10 * 1024 * 1024⟩ (.document [.sequence [xScalar, .mapping []]])
      = .error (sizeLimitMsg 1) :=
  ⟨rfl, rfl⟩

/-- C1 amended: with maximum result size `S > 0`, a flat sequence of exactly
`S` scalar leaves — whose last visited node performs the `S`-th write —
flattens successfully to all `S` pairs, and the same document with one more
element fails with the size-limit error naming `S`; the guard compares the
container size against `S` at the entry of every node (hence before each
write), so a document yielding exactly `S` pairs can still fail when any
node is visited after the `S`-th write. -/
theorem c1_size_boundary_amended (S : Nat) (hS : 0 < S) :
    FlattenYAMLNode (sizeFlattener S) (seqDoc S) = .ok (seqResult S) ∧
    (seqResult S).length = S ∧
    FlattenYAMLNode (sizeFlattener S) (seqDoc (S + 1)) = .error (sizeLimitMsg S) := by
  have hS0 : ([] : FlatResult).length < (sizeFlattener S).maxResultSize := by
    simpa [sizeFlattener] using hS
  refine ⟨?_, seqResult_length S, ?_⟩
  · rw [seqDoc, flattenYAMLNode_document _ _ (by simpa [sizeFlattener] using hS),
      flattenNode_sequence _ _ (by simp [sizeFlattener]) hS0]
    have := seq_ok S S 0 (by omega)
    simpa [seqResult] using this
  · rw [seqDoc, flattenYAMLNode_document _ _ (by simpa [sizeFlattener] using hS),
      flattenNode_sequence _ _ (by simp [sizeFlattener]) hS0,
      show List.replicate (S + 1) xScalar = List.replicate S xScalar ++ [xScalar] from
        by rw [List.replicate_add]; rfl,
      flattenSeq_append]
    have h1 := seq_ok S S 0 (by omega)
    rw [show seqResult 0 = [] from rfl] at h1
    rw [h1]
    show flattenSequenceNodeWithDepth (sizeFlattener S) [xScalar] [] (seqResult (0 + S)) 1
      (0 + (List.replicate S xScalar).length) = .error (sizeLimitMsg S)
    rw [List.length_replicate]
    have := seq_err S [] (seqResult S) S (by rw [seqResult_length])
    simpa using this

/-- C1 witness: with maximum result size 2, a sequence of two scalars yields
both pairs, and a sequence of three fails with the size-limit error
naming 2. -/
theorem c1_size_boundary_amended_witness :
    FlattenYAMLNode (sizeFlattener 2) (seqDoc 2)
      = .ok [(goStr "[0]", goStr "x"), (goStr "[1]", goStr "x")] ∧
    FlattenYAMLNode (sizeFlattener 2) (seqDoc 3) = .error (sizeLimitMsg 2) := by
  obtain ⟨h1, _, h3⟩ := c1_size_boundary_amended 2 (by decide)
  rw [show seqResult 2 = [(goStr "[0]", goStr "x"), (goStr "[1]", goStr "x")] from by decide] at h1
  exact ⟨h1, h3⟩

/-- C5: any file path whose cleaned form still contains a `..` segment is
rejected by the file entry point with the directory-traversal error, and the
filesystem is never touched: the access trace of `os.Stat` and `os.ReadFile`
calls is empty. -/
theorem c5_traversal_rejected (f : Flattener) (parse : GoStr → Except GoStr YamlNode)
    (fs : FS) (cwd p : GoStr) (h : hasDotDotSegment (goClean p)) :
    FlattenYAMLFile f parse fs cwd p =
      (.error (goStr "file path contains invalid directory traversal patterns"), []) := by
  have hval : validateFilePath cwd p
      = .error (goStr "file path contains invalid directory traversal patterns") := by
    by_cases hp : p = []
    · subst hp
      exact absurd h (by decide)
    · have hc : goContains (goClean p) (goStr "..") = true :=
        goContains_of_sub (hasDotDotSegment_sub h)
      rw [validateFilePath, if_neg hp, if_pos hc]
  rw [FlattenYAMLFile, hval]

/-- Concrete filesystem and parser for the traversal witness. -/
def c5FS : FS := ⟨fun _ => .ok 0, fun _ => .ok []⟩

/-- Stand-in parser for the traversal witness; it is never reached. -/
def c5Parse : GoStr → Except GoStr YamlNode := fun _ => .error []

/-- C5 witness: `../../etc/passwd` cleans to itself, still contains a `..`
segment, and the file entry point rejects it with the traversal error
without one stat or read. -/
theorem c5_traversal_rejected_witness :
    hasDotDotSegment (goClean (goStr "../../etc/passwd")) ∧
    FlattenYAMLFile NewFlattener c5Parse c5FS (goStr "/home/user") (goStr "../../etc/passwd")
      = (.error (goStr "file path contains invalid directory traversal patterns"), []) :=
  ⟨by decide, c5_traversal_rejected NewFlattener c5Parse c5FS (goStr "/home/user")
    (goStr "../../etc/passwd") (by decide)⟩

/-! ### End-to-end sanity checks against the documented scenarios -/

example :
    FlattenYAMLNode NewFlattener
      (.document [.mapping [.scalar (goStr "!!str") (goStr "key1"),
                            .scalar (goStr "!!str") (goStr "value1"),
                            .scalar (goStr "!!str") (goStr "key2"),
                            .mapping [.scalar (goStr "!!str") (goStr "nested"),
                                      .scalar (goStr "!!str") (goStr "value2")]]])
      = .ok [(goStr "key1", goStr "value1"), (goStr "key2.nested", goStr "value2")] := by
  rfl

example :
    FlattenYAMLNode NewFlattener
      (.document [.mapping [.scalar (goStr "!!str") (goStr "items"),
                            .sequence [.mapping [.scalar (goStr "!!str") (goStr "name"),
                                                 .scalar (goStr "!!str") (goStr "item1")],
                                       .mapping [.scalar (goStr "!!str") (goStr "name"),
                                                 .scalar (goStr "!!str") (goStr "item2")]]]])
      = .ok [(goStr "items[0].name", goStr "item1"), (goStr "items[1].name", goStr "item2")] := by
  rfl

example :
    FlattenYAMLNode NewFlattener
      (.document [.mapping [.scalar (goStr "!!str") (goStr "matrix"),
                            .sequence [.sequence [.scalar (goStr "!!int") (goStr "1"),
                                                  .scalar (goStr "!!int") (goStr "2")]]]])
      = .ok [(goStr "matrix[0][0]", goStr "1"), (goStr "matrix[0][1]", goStr "2")] := by
  rfl

example :
    FlattenYAMLNode NewFlattener
      (.document [.mapping [.scalar (goStr "!!str") (goStr "a"), .scalar (goStr "!!null") (goStr "null")]])
      = .ok [(goStr "a", [])] := by
  rfl

example : goClean (goStr "a/./b//../c") = goStr "a/c" := by decide

example : goClean (goStr "/a/../../b") = goStr "/b" := by decide

example : goClean (goStr "../../etc/passwd") = goStr "../../etc/passwd" := by decide

example : validateFilePath (goStr "/home/user") (goStr "../../etc/passwd")
    = .error (goStr "file path contains invalid directory traversal patterns") := by
  rfl
